import Mathlib

/-
Verification of the fabricate-pdf-generator size-control pipeline.

This development shallowly embeds the algorithmic core of the repository:
the file-size parser and inflator (pdf_generator/inflation.py), the raster
scale and repetition rules (pdf_generator/images.py), the padding content
generator (pdf_generator/content.py), and the filename sanitization and
per-row orchestration (pdf_generator/generator.py).  Machine integers are
modelled as Nat/Int, Python floats as exact rationals, strings as lists of
characters (ASCII semantics), and fallible operations as Option values.
-/

set_option maxRecDepth 8000

namespace PdfGen

-- ## Definitions: size inflation (pdf_generator/inflation.py)

/-- The sentinel written by FileSizeInflator.inflate_to_target_size before the
raw filler bytes.  Its byte length is 29, although the code discounts 30. -/
def padding_marker : String := "\n% Load testing padding data\n"

/-- The chunked padding loop of inflate_to_target_size: repeatedly writes
min chunkLen remaining bytes until remaining reaches zero; returns the total
number of filler bytes written. -/
def chunkWriteTotal (chunkLen remaining : ℕ) : ℕ :=
  if _h : chunkLen = 0 ∨ remaining = 0 then 0
  else min chunkLen remaining + chunkWriteTotal chunkLen (remaining - min chunkLen remaining)
termination_by remaining
decreasing_by
  push_neg at _h
  have h1 : 0 < min chunkLen remaining :=
    lt_min (Nat.pos_of_ne_zero _h.1) (Nat.pos_of_ne_zero _h.2)
  omega

/-- FileSizeInflator.inflate_to_target_size, modelled as the final byte size
of the file.  Mirrors the source: an early return when the current size
already meets the target, otherwise the 29-byte sentinel is appended and the
chunk loop writes padding_needed - 30 further bytes when that quantity is
positive (the Python value may be negative, hence the signed model). -/
def inflate_to_target_size (current_size target_kb : ℕ) : ℕ :=
  if target_kb * 1024 ≤ current_size then current_size
  else
    let padding_needed : ℕ := target_kb * 1024 - current_size
    let remaining : ℤ := (padding_needed : ℤ) - 30
    current_size + padding_marker.length +
      (if 0 < remaining then chunkWriteTotal (min 65536 remaining.toNat) remaining.toNat else 0)

-- ## Definitions: float parsing (pdf_generator/inflation.py, parse_file_size)

/-- The whitespace class stripped by Python str.strip and accepted by float. -/
def isSpacePy (c : Char) : Bool :=
  c == ' ' || c == '\t' || c == '\n' || c == '\r' || c == '\x0b' || c == '\x0c'

/-- Python str.strip with an arbitrary character class: drop matching
characters from both ends. -/
def pyStripBy (p : Char → Bool) (l : List Char) : List Char :=
  ((l.dropWhile p).reverse.dropWhile p).reverse

/-- Python str.lower on a character list (ASCII). -/
def pyLower (l : List Char) : List Char := l.map Char.toLower

/-- Continuation of a digit group: every underscore must sit between two
digits, as in the numeric-literal grammar of Python float(). -/
def validDigitsRest : List Char → Bool
  | [] => true
  | '_' :: c :: rest => c.isDigit && validDigitsRest rest
  | c :: rest => c.isDigit && validDigitsRest rest

/-- A nonempty digit group, possibly with single underscores between
digits. -/
def validDigits (l : List Char) : Bool :=
  match l with
  | [] => false
  | c :: rest => c.isDigit && validDigitsRest rest

/-- Remove the underscore separators of a digit group. -/
def stripUnder (l : List Char) : List Char := l.filter (fun c => c != '_')

/-- Value of a digit string, most significant digit first. -/
def digitsVal (l : List Char) : ℕ :=
  l.foldl (fun a c => 10 * a + (c.toNat - 48)) 0

/-- The parsed shape of a string accepted by Python float(): a finite
decimal literal (sign, integer part, fraction digits and their count, and a
signed decimal exponent), an infinity literal, or a NaN literal. -/
inductive FloatRepr where
  | finite (neg : Bool) (ip fp fpLen : ℕ) (eneg : Bool) (ev : ℕ)
  | infinite (neg : Bool)
  | nan (neg : Bool)
deriving DecidableEq

/-- The mantissa of a float literal: either one digit group, or two digit
groups around a single dot with at least one digit present. -/
def mantissaRepr (em : List Char) : Option (ℕ × ℕ × ℕ) :=
  let ip := em.takeWhile (fun c => c != '.')
  let rest := em.dropWhile (fun c => c != '.')
  match rest with
  | [] => if validDigits ip then some (digitsVal (stripUnder ip), 0, 0) else none
  | '.' :: fp =>
    if (ip.isEmpty || validDigits ip) && (fp.isEmpty || validDigits fp)
        && !(ip.isEmpty && fp.isEmpty) then
      some (digitsVal (stripUnder ip), digitsVal (stripUnder fp), (stripUnder fp).length)
    else none
  | _ => none

/-- The string grammar of Python float(): surrounding whitespace is
stripped, then an optional sign precedes either a case-insensitive inf,
infinity or nan word, or a decimal literal with optional fraction and
optional signed exponent introduced by e or E.  None models the ValueError
raised on any other string. -/
def pyFloatRepr (s : String) : Option FloatRepr :=
  let l := pyStripBy isSpacePy s.toList
  let sgn : Bool × List Char :=
    if l.head? = some '-' then (true, l.tail)
    else if l.head? = some '+' then (false, l.tail)
    else (false, l)
  let m := sgn.2
  if pyLower m = "inf".toList || pyLower m = "infinity".toList then
    some (FloatRepr.infinite sgn.1)
  else if pyLower m = "nan".toList then
    some (FloatRepr.nan sgn.1)
  else
    let em := m.takeWhile (fun c => c != 'e' && c != 'E')
    let erest := m.dropWhile (fun c => c != 'e' && c != 'E')
    match erest with
    | [] =>
      (mantissaRepr em).map (fun r => FloatRepr.finite sgn.1 r.1 r.2.1 r.2.2 false 0)
    | _ :: etail =>
      let esgn : Bool × List Char :=
        if etail.head? = some '-' then (true, etail.tail)
        else if etail.head? = some '+' then (false, etail.tail)
        else (false, etail)
      if validDigits esgn.2 then
        (mantissaRepr em).map
          (fun r => FloatRepr.finite sgn.1 r.1 r.2.1 r.2.2 esgn.1 (digitsVal (stripUnder esgn.2)))
      else none

/-- The value of a Python float: an exact rational for a finite literal, or
one of the special values.  The rounding of finite literals to IEEE doubles
is not modelled (the claims do not depend on it); in particular a finite
literal so large that the double overflows also yields infinity in CPython,
a case this rational model places in the finite branch. -/
inductive PyFloatVal where
  | finite (q : ℚ)
  | infinite (neg : Bool)
  | nan
deriving DecidableEq

/-- Evaluation of a parsed float literal: sign times mantissa times the
power of ten of the exponent. -/
def floatVal : FloatRepr → PyFloatVal
  | FloatRepr.finite neg ip fp fpLen eneg ev =>
    PyFloatVal.finite ((if neg then (-1 : ℚ) else 1) * ((ip : ℚ) + (fp : ℚ) / 10 ^ fpLen)
      * (10 : ℚ) ^ (if eneg then -(ev : ℤ) else (ev : ℤ)))
  | FloatRepr.infinite neg => PyFloatVal.infinite neg
  | FloatRepr.nan _ => PyFloatVal.nan

/-- Python float(str(value)): none models the ValueError on unparseable
text. -/
def pyFloat (s : String) : Option PyFloatVal := (pyFloatRepr s).map floatVal

/-- Python int() applied to a finite float: truncation toward zero. -/
def ratTrunc (q : ℚ) : ℤ := if 0 ≤ q then ⌊q⌋ else ⌈q⌉

/-- The observable outcome of parse_file_size: a returned positive target, a
returned None (with or without the printed warning), or an exception that
escapes the function. -/
inductive ParseResult where
  | value (n : ℤ)
  | absent (warned : Bool)
  | raised
deriving DecidableEq

/-- FileSizeInflator.parse_file_size.  The input models the raw value: none
for SQL NULL, some s for str(value) otherwise.  The except clause catches
only ValueError and TypeError: a failed float() coercion and the ValueError
of int() on NaN are caught and warn, but int() on an infinite float raises
OverflowError, which escapes the function uncaught. -/
def parse_file_size (v : Option String) : ParseResult :=
  match v with
  | none => ParseResult.absent false
  | some s =>
    match pyFloat s with
    | none => ParseResult.absent true
    | some PyFloatVal.nan => ParseResult.absent true
    | some (PyFloatVal.infinite _) => ParseResult.raised
    | some (PyFloatVal.finite q) =>
      if 0 < ratTrunc q then ParseResult.value (ratTrunc q) else ParseResult.absent false

-- ## Definitions: content padding (pdf_generator/content.py)

/-- A flowable of the vector path: a styled paragraph or a spacer. -/
inductive Block where
  | para (text : String) (style : String)
  | spacer (width height : ℕ)
deriving DecidableEq

/-- The filler text of add_padding_content: the word padding repeated 100
times, a 700-character block. -/
def padding_text : String := String.join (List.replicate 100 "padding")

/-- ContentGenerator.add_padding_content: a no-op for targets of at most
50000 bytes, otherwise three invisible filler paragraphs are appended. -/
def add_padding_content (content : List Block) (target_bytes : ℕ) : List Block :=
  if target_bytes ≤ 50000 then content
  else content ++ List.replicate 3 (Block.para padding_text "Invisible")

-- ## Definitions: per-row loop (pdf_generator/generator.py, generate_all_pdfs)

/-- The try/except body of the per-row loop of generate_all_pdfs: gen models
_generate_single_pdf on an enumerated row and may fail with any exception;
a failure is caught and the loop continues with the next row, a success
appends the produced path. -/
def processRows {Row Err Path : Type} (gen : ℕ → Row → Except Err Path) :
    List (ℕ × Row) → List Path
  | [] => []
  | (i, r) :: rest =>
    match gen i r with
    | Except.ok p => p :: processRows gen rest
    | Except.error _ => processRows gen rest

/-- PDFGenerator.generate_all_pdfs restricted to its per-row loop: process
every enumerated row, collecting the generated paths. -/
def generate_all_pdfs {Row Err Path : Type} (gen : ℕ → Row → Except Err Path)
    (rows : List Row) : List Path :=
  processRows gen rows.enum

-- ## Definitions: filename sanitization (pdf_generator/generator.py)

/-- Word characters of the regex class: ASCII letters, digits, underscore. -/
def isWordChar (c : Char) : Bool := c.isAlphanum || c == '_'

/-- The characters kept by the first re.sub of _sanitize_filename; everything
else is replaced by an underscore. -/
def keepChar (c : Char) : Bool :=
  isWordChar c || isSpacePy c || c == '-' || c == '_' || c == '.'

/-- The run class of the second re.sub: whitespace or underscore. -/
def spaceOrUnderscore (c : Char) : Bool := isSpacePy c || c == '_'

/-- The characters trimmed by the final strip of _sanitize_filename. -/
def stripSet (c : Char) : Bool := c == '_' || c == '.'

/-- os.path.basename on POSIX: the part after the last slash. -/
def pyBasename (l : List Char) : List Char :=
  (l.reverse.takeWhile (fun c => c != '/')).reverse

/-- First re.sub of _sanitize_filename: replace disallowed characters. -/
def replaceInvalid (l : List Char) : List Char :=
  l.map (fun c => if keepChar c then c else '_')

/-- Second re.sub of _sanitize_filename: collapse each maximal run of
whitespace or underscore characters to a single underscore. -/
def collapseRuns : List Char → List Char
  | [] => []
  | [c] => [if spaceOrUnderscore c then '_' else c]
  | c :: d :: rest =>
    if spaceOrUnderscore c && spaceOrUnderscore d then collapseRuns (d :: rest)
    else (if spaceOrUnderscore c then '_' else c) :: collapseRuns (d :: rest)

/-- PDFGenerator._sanitize_filename before the length cap: basename, char
replacement, run collapsing, strip of underscores and dots, and the fallback
to the name document when everything was stripped away. -/
def sanitizeCore (l : List Char) : List Char :=
  let s1 := pyBasename l
  let s2 := replaceInvalid s1
  let s3 := collapseRuns s2
  let s4 := pyStripBy stripSet s3
  if s4.isEmpty then "document".toList else s4

/-- PDFGenerator._sanitize_filename: the core pipeline plus the 200-character
truncation. -/
def sanitize_filename (l : List Char) : List Char :=
  if 200 < (sanitizeCore l).length then (sanitizeCore l).take 200 else sanitizeCore l

/-- Two adjacent characters do not both belong to the collapsible run class:
the shape invariant of collapseRuns output. -/
abbrev noRun (a b : Char) : Prop :=
  ¬(spaceOrUnderscore a = true ∧ spaceOrUnderscore b = true)

-- ## Definitions: output filename resolution (pdf_generator/generator.py)

/-- The pdf extension appended by _generate_single_pdf. -/
def pdfExt : List Char := ['.', 'p', 'd', 'f']

/-- Python str.endswith as a Boolean on character lists. -/
def pyEndsWith (s t : List Char) : Bool := t.reverse.isPrefixOf s.reverse

/-- The extension step of _generate_single_pdf: append .pdf when the
lowercased sanitized name does not already end with it. -/
def withPdfExtension (f : List Char) : List Char :=
  if pyEndsWith (pyLower f) pdfExt then f else f ++ pdfExt

/-- The custom-filename branch of _generate_single_pdf: strip whitespace,
sanitize, ensure the pdf extension. -/
def resolve_custom_filename (s : List Char) : List Char :=
  withPdfExtension (sanitize_filename (pyStripBy isSpacePy s))

/-- The default naming scheme of _generate_single_pdf: the row index followed
by the pdf extension. -/
def default_row_filename (i : ℕ) : List Char := (Nat.repr i).toList ++ pdfExt

/-- The filename resolution of _generate_single_pdf.  The truthiness test
if custom_filename is applied to the raw value, before any stripping: None
and the empty string fall through to the default scheme, every other string
takes the custom branch. -/
def resolve_filename (custom : Option (List Char)) (i : ℕ) : List Char :=
  match custom with
  | none => default_row_filename i
  | some s => if s.isEmpty then default_row_filename i else resolve_custom_filename s

-- ## Definitions: raster rendering (pdf_generator/images.py)

/-- ImageGenerator._calculate_scale_factor, with Python floats as exact
rationals. -/
def calculate_scale_factor (target_kb : ℕ) : ℚ :=
  if 500 < target_kb then min 4 ((target_kb : ℚ) / 250)
  else if 100 < target_kb then min (5/2) ((target_kb : ℚ) / 100)
  else 3/2

/-- Python int() on a float value: floor for nonnegative input, ceiling for
negative input, that is truncation toward zero. -/
def pyInt (q : ℚ) : ℤ := if 0 ≤ q then ⌊q⌋ else ⌈q⌉

/-- One drawing operation of _draw_form_fields: a Section marker (recording
the section number rendered into its text), a field label, or a field
value. -/
inductive DrawOp where
  | sectionMarker (n : ℕ)
  | fieldLabel (key : String)
  | fieldValue (text : String)
deriving DecidableEq

/-- The repetition count of _draw_form_fields:
max(1, min(5, (target_kb or 0) // 200)). -/
def repetitionsOf (target_kb : Option ℕ) : ℕ :=
  max 1 (min 5 (target_kb.getD 0 / 200))

/-- The inner field loop of _draw_form_fields.  Before each field, the
vertical position is checked against the bottom margin; exceeding it aborts
the whole draw (the Bool result records the early return).  Each field draws
its label, advances by the label step, draws its value, and advances by the
line spacing. -/
def drawFields (thresh labelStep lineSpacing : ℤ) :
    List (String × Option String) → ℤ → List DrawOp × ℤ × Bool
  | [], y => ([], y, false)
  | (k, v) :: rest, y =>
    if thresh < y then ([], y, true)
    else
      let r := drawFields thresh labelStep lineSpacing rest (y + labelStep + lineSpacing)
      (DrawOp.fieldLabel k :: DrawOp.fieldValue (v.getD "N/A") :: r.1, r.2)

/-- The repetition loop of _draw_form_fields: every iteration after the first
draws a Section marker and advances by the line spacing, then draws the field
list; a truncated field loop ends the whole function, otherwise the section
spacing is added and the next repetition follows. -/
def drawReps (data : List (String × Option String))
    (thresh labelStep lineSpacing sectionSpacing : ℤ) :
    ℕ → ℕ → ℤ → List DrawOp × ℤ
  | 0, _, y => ([], y)
  | remaining + 1, rep, y =>
    if 0 < rep then
      let fr := drawFields thresh labelStep lineSpacing data (y + lineSpacing)
      if fr.2.2 then (DrawOp.sectionMarker (rep + 1) :: fr.1, fr.2.1)
      else
        let rest := drawReps data thresh labelStep lineSpacing sectionSpacing
          remaining (rep + 1) (fr.2.1 + sectionSpacing)
        (DrawOp.sectionMarker (rep + 1) :: fr.1 ++ rest.1, rest.2)
    else
      let fr := drawFields thresh labelStep lineSpacing data y
      if fr.2.2 then (fr.1, fr.2.1)
      else
        let rest := drawReps data thresh labelStep lineSpacing sectionSpacing
          remaining (rep + 1) (fr.2.1 + sectionSpacing)
        (fr.1 ++ rest.1, rest.2)

/-- ImageGenerator._draw_form_fields: margins, spacings and the repetition
count are derived from the scale factor and target, then the repetition loop
runs from the given start position. -/
def draw_form_fields (data : List (String × Option String)) (scale : ℚ)
    (start_y height : ℤ) (target_kb : Option ℕ) : List DrawOp × ℤ :=
  drawReps data (height - pyInt (100 * scale)) (pyInt (25 * scale)) (pyInt (40 * scale))
    (pyInt (30 * scale)) (repetitionsOf target_kb) 0 start_y

/-- ImageGenerator.generate_large_image restricted to its drawing ops: the
scale comes from the target, the canvas height is int(792 * scale), and the
title block leaves the field area starting at height 110. -/
def generate_large_image_ops (data : List (String × Option String)) (target_kb : ℕ) :
    List DrawOp :=
  (draw_form_fields data (calculate_scale_factor target_kb) 110
    (pyInt (792 * calculate_scale_factor target_kb)) (some target_kb)).1

/-- Recognizer for Section markers. -/
def sectionFlag : DrawOp → Bool
  | DrawOp.sectionMarker _ => true
  | _ => false

/-- Recognizer for field labels. -/
def labelFlag : DrawOp → Bool
  | DrawOp.fieldLabel _ => true
  | _ => false

/-- Number of Section markers drawn. -/
def countSections (ops : List DrawOp) : ℕ := ops.countP sectionFlag

/-- Number of field labels drawn. -/
def countLabels (ops : List DrawOp) : ℕ := ops.countP labelFlag

/-- The ops of one complete pass over the field list. -/
def fieldOps (data : List (String × Option String)) : List DrawOp :=
  data.foldr (fun kv acc => DrawOp.fieldLabel kv.1 :: DrawOp.fieldValue (kv.2.getD "N/A") :: acc) []

/-- The ops of r untruncated repetitions starting at repetition index rep:
every repetition after the very first of the loop carries its Section
marker. -/
def fullRepsOps (data : List (String × Option String)) : ℕ → ℕ → List DrawOp
  | 0, _ => []
  | r + 1, rep =>
    if 0 < rep then
      DrawOp.sectionMarker (rep + 1) :: fieldOps data ++ fullRepsOps data r (rep + 1)
    else
      fieldOps data ++ fullRepsOps data r (rep + 1)

/-- Five generic form fields, used to exhibit raster truncation. -/
def demoData : List (String × Option String) :=
  [("field_1", some "v1"), ("field_2", some "v2"), ("field_3", some "v3"),
   ("field_4", some "v4"), ("field_5", some "v5")]

-- ## Theorems: size inflation (C1)

/-- The chunk loop writes exactly the requested number of bytes whenever the
chunk length is positive, which it always is at its call site. -/
theorem chunkWriteTotal_eq (c : ℕ) (hc : 0 < c) : ∀ r, chunkWriteTotal c r = r := by
  intro r
  induction r using Nat.strong_induction_on with
  | _ r ih =>
    rw [chunkWriteTotal]
    by_cases h : c = 0 ∨ r = 0
    · rcases h with h | h
      · omega
      · simp [h]
    · rw [dif_neg h]
      push_neg at h
      have h1 : 0 < min c r := lt_min hc (Nat.pos_of_ne_zero h.2)
      have h2 : min c r ≤ r := Nat.min_le_right _ _
      rw [ih (r - min c r) (by omega)]
      omega

/-- Whenever at least 30 bytes of padding are needed, the inflator stops one
byte short of the target: the sentinel is 29 bytes long but the loop budget
is debited 30. -/
theorem inflate_shortfall (c t : ℕ) (h30 : c + 30 ≤ t * 1024) :
    inflate_to_target_size c t = t * 1024 - 1 := by
  rw [inflate_to_target_size]
  rw [if_neg (by omega)]
  dsimp only
  have hlen : padding_marker.length = 29 := by decide
  by_cases h : (0:ℤ) < (↑(t * 1024 - c) : ℤ) - 30
  · rw [if_pos h]
    have hpos : 0 < min 65536 ((↑(t * 1024 - c) - 30 : ℤ)).toNat := by
      refine lt_min (by norm_num) ?_
      omega
    rw [chunkWriteTotal_eq _ hpos]
    omega
  · rw [if_neg h]
    omega

/-- Claim C1: the invariant that inflate_to_target_size leaves the file at
target_kb * 1024 bytes or more fails on the code.  Evaluating the model at an
empty artifact with a 1 KB target gives a final size of 1023 bytes, one byte
below the 1024-byte target: the code writes a 29-byte sentinel but deducts 30
from the remaining padding. -/
theorem inflate_misses_target : inflate_to_target_size 0 1 = 1023 ∧ 1023 < 1 * 1024 :=
  ⟨by rw [inflate_shortfall 0 1 (by norm_num)], by norm_num⟩

-- ## Theorems: raster scale factor (C2)

/-- Claim C2, counterexample: the scale factor is not monotonically
non-decreasing; it drops from 1.5 at 100 KB to 1.01 at 101 KB. -/
theorem scale_not_monotone :
    (100 : ℕ) ≤ 101 ∧ calculate_scale_factor 101 < calculate_scale_factor 100 := by
  refine ⟨by norm_num, ?_⟩
  rw [calculate_scale_factor, calculate_scale_factor]
  norm_num

/-- Claim C2, amended: the raster scale factor is at least 1 for every
target, and it is monotonically non-decreasing within each piece of the rule
(targets up to 100 KB, targets in 101..500 KB, targets above 500 KB); it is
not monotone across the piece boundaries. -/
theorem scale_factor_amended :
    (∀ t : ℕ, 1 ≤ calculate_scale_factor t)
    ∧ (∀ a b : ℕ, a ≤ b → b ≤ 100 →
        calculate_scale_factor a ≤ calculate_scale_factor b)
    ∧ (∀ a b : ℕ, 100 < a → a ≤ b → b ≤ 500 →
        calculate_scale_factor a ≤ calculate_scale_factor b)
    ∧ (∀ a b : ℕ, 500 < a → a ≤ b →
        calculate_scale_factor a ≤ calculate_scale_factor b) := by
  refine ⟨?_, ?_, ?_, ?_⟩
  · intro t
    rw [calculate_scale_factor]
    split
    · rename_i h
      refine le_min (by norm_num) ?_
      rw [le_div_iff₀ (by norm_num : (0:ℚ) < 250)]
      calc (1:ℚ) * 250 = 250 := by norm_num
        _ ≤ (t : ℚ) := by exact_mod_cast by omega
    · split
      · rename_i h1 h2
        refine le_min (by norm_num) ?_
        rw [le_div_iff₀ (by norm_num : (0:ℚ) < 100)]
        calc (1:ℚ) * 100 = 100 := by norm_num
          _ ≤ (t : ℚ) := by exact_mod_cast by omega
      · norm_num
  · intro a b hab hb
    rw [calculate_scale_factor, calculate_scale_factor]
    rw [if_neg (by omega), if_neg (by omega), if_neg (by omega), if_neg (by omega)]
  · intro a b ha hab hb
    rw [calculate_scale_factor, calculate_scale_factor]
    rw [if_neg (by omega), if_pos (by omega), if_neg (by omega), if_pos (by omega)]
    refine min_le_min le_rfl ?_
    apply div_le_div_of_nonneg_right ?_ (by norm_num : (0:ℚ) ≤ 100)
    exact_mod_cast hab
  · intro a b ha hab
    rw [calculate_scale_factor, calculate_scale_factor]
    rw [if_pos (by omega), if_pos (by omega)]
    refine min_le_min le_rfl ?_
    apply div_le_div_of_nonneg_right ?_ (by norm_num : (0:ℚ) ≤ 250)
    exact_mod_cast hab

/-- Witness for the amended C2 statement at concrete targets. -/
theorem scale_factor_amended_holds :
    1 ≤ calculate_scale_factor 40
    ∧ calculate_scale_factor 60 ≤ calculate_scale_factor 100
    ∧ calculate_scale_factor 120 ≤ calculate_scale_factor 450
    ∧ calculate_scale_factor 501 ≤ calculate_scale_factor 2000 :=
  ⟨scale_factor_amended.1 40,
   scale_factor_amended.2.1 60 100 (by norm_num) (by norm_num),
   scale_factor_amended.2.2.1 120 450 (by norm_num) (by norm_num) (by norm_num),
   scale_factor_amended.2.2.2 501 2000 (by norm_num) (by norm_num)⟩

-- ## Theorems: parse_file_size (C4, C10)

/-- Claim C4, counterexample: parse_file_size can raise.  A cell holding the
text inf (or any sign or case variant of infinity) passes float() untouched,
and int() on the infinite value raises OverflowError, which the except
clause for ValueError and TypeError does not catch. -/
theorem parse_file_size_raises :
    parse_file_size (some "inf") = ParseResult.raised
    ∧ parse_file_size (some "-Infinity") = ParseResult.raised :=
  ⟨by decide, by decide⟩

/-- Claim C4, amended: parse_file_size returns None without warning on a
missing value, None with the warning on a failed coercion and on NaN,
silently None on a nonpositive coerced value, and otherwise a positive
integer; it raises, and raises only, on a value that coerces to an infinite
float (such as the text inf; in the running program also a finite literal
large enough to overflow the double).  So the original never-raises contract
holds exactly on the non-infinite inputs. -/
theorem parse_file_size_spec (v : Option String) :
    (∀ n, parse_file_size v = ParseResult.value n → 0 < n)
    ∧ (v = none → parse_file_size v = ParseResult.absent false)
    ∧ (∀ s, v = some s → pyFloat s = none → parse_file_size v = ParseResult.absent true)
    ∧ (∀ s, v = some s → pyFloat s = some PyFloatVal.nan →
        parse_file_size v = ParseResult.absent true)
    ∧ (∀ s q, v = some s → pyFloat s = some (PyFloatVal.finite q) → ratTrunc q ≤ 0 →
        parse_file_size v = ParseResult.absent false)
    ∧ (∀ s q, v = some s → pyFloat s = some (PyFloatVal.finite q) → 0 < ratTrunc q →
        parse_file_size v = ParseResult.value (ratTrunc q))
    ∧ (∀ s, v = some s →
        (parse_file_size v = ParseResult.raised
          ↔ ∃ b, pyFloat s = some (PyFloatVal.infinite b))) := by
  refine ⟨?_, ?_, ?_, ?_, ?_, ?_, ?_⟩
  · intro n hn
    cases v with
    | none => cases hn
    | some s =>
      rw [parse_file_size] at hn
      cases hq : pyFloat s with
      | none => rw [hq] at hn; cases hn
      | some w =>
        rw [hq] at hn
        cases w with
        | nan => cases hn
        | infinite b => cases hn
        | finite q =>
          simp only [] at hn
          by_cases hpos : 0 < ratTrunc q
          · rw [if_pos hpos] at hn
            cases hn
            exact hpos
          · rw [if_neg hpos] at hn
            cases hn
  · rintro rfl
    rfl
  · rintro s rfl hq
    rw [parse_file_size, hq]
  · rintro s rfl hq
    rw [parse_file_size, hq]
  · rintro s q rfl hq hle
    rw [parse_file_size, hq]
    simp only []
    rw [if_neg (by omega)]
  · rintro s q rfl hq hpos
    rw [parse_file_size, hq]
    simp only []
    rw [if_pos hpos]
  · rintro s rfl
    constructor
    · intro hr
      rw [parse_file_size] at hr
      cases hq : pyFloat s with
      | none => rw [hq] at hr; cases hr
      | some w =>
        rw [hq] at hr
        cases w with
        | nan => cases hr
        | infinite b => exact ⟨b, rfl⟩
        | finite q =>
          simp only [] at hr
          by_cases hpos : 0 < ratTrunc q
          · rw [if_pos hpos] at hr; cases hr
          · rw [if_neg hpos] at hr; cases hr
    · rintro ⟨b, hb⟩
      rw [parse_file_size, hb]

/-- Witness for the amended C4 statement at concrete inputs: a missing
value, the unparseable text abc, the NaN literal, the nonpositive value -2,
the exponent literal 1e3 (which the program accepts as 1000), and the
raising characterization at inf. -/
theorem parse_file_size_spec_holds :
    parse_file_size none = ParseResult.absent false
    ∧ parse_file_size (some "abc") = ParseResult.absent true
    ∧ parse_file_size (some "nan") = ParseResult.absent true
    ∧ parse_file_size (some "-2") = ParseResult.absent false
    ∧ parse_file_size (some "1e3") = ParseResult.value 1000
    ∧ (parse_file_size (some "inf") = ParseResult.raised
        ↔ ∃ b, pyFloat "inf" = some (PyFloatVal.infinite b)) := by
  have habc : pyFloat "abc" = none := by
    rw [pyFloat, show pyFloatRepr "abc" = none from by decide]
    rfl
  have hnan : pyFloat "nan" = some PyFloatVal.nan := by decide
  have hm2 : pyFloat "-2" = some (PyFloatVal.finite (-2)) := by
    rw [pyFloat, show pyFloatRepr "-2" = some (FloatRepr.finite true 2 0 0 false 0) from by decide]
    simp only [Option.map_some', floatVal]
    norm_num
  have h1e3 : pyFloat "1e3" = some (PyFloatVal.finite 1000) := by
    rw [pyFloat, show pyFloatRepr "1e3" = some (FloatRepr.finite false 1 0 0 false 3) from by decide]
    simp only [Option.map_some', floatVal]
    norm_num
  have htr : ratTrunc (1000 : ℚ) = 1000 := by norm_num [ratTrunc]
  refine ⟨(parse_file_size_spec none).2.1 rfl,
    (parse_file_size_spec (some "abc")).2.2.1 "abc" rfl habc,
    (parse_file_size_spec (some "nan")).2.2.2.1 "nan" rfl hnan,
    (parse_file_size_spec (some "-2")).2.2.2.2.1 "-2" (-2) rfl hm2 ?_,
    ?_,
    (parse_file_size_spec (some "inf")).2.2.2.2.2.2 "inf" rfl⟩
  · rw [ratTrunc, if_neg (by norm_num)]
    rw [show ((-2 : ℚ)) = ((-2 : ℤ) : ℚ) from by norm_num, Int.ceil_intCast]
    norm_num
  · have h := (parse_file_size_spec (some "1e3")).2.2.2.2.2.1 "1e3" 1000 rfl h1e3
      (by rw [htr]; norm_num)
    rw [htr] at h
    exact h

/-- Claim C10: on a value whose text parses as a nonnegative finite decimal
number, parse_file_size truncates toward zero, which on nonnegative input is
the floor, so fractional kilobyte requests are rounded down, silently (no
warning), before the positivity check. -/
theorem parse_file_size_truncates (s : String) (q : ℚ)
    (hq : pyFloat s = some (PyFloatVal.finite q)) (hpos : 0 ≤ q) :
    ratTrunc q = ⌊q⌋ ∧ ((⌊q⌋ : ℤ) : ℚ) ≤ q
    ∧ parse_file_size (some s)
      = (if 0 < ⌊q⌋ then ParseResult.value ⌊q⌋ else ParseResult.absent false) := by
  have ht : ratTrunc q = ⌊q⌋ := if_pos hpos
  refine ⟨ht, Int.floor_le q, ?_⟩
  rw [parse_file_size, hq]
  simp only []
  rw [ht]

/-- Witness for C10: the text 1.9 parses to 19/10 and produces the 1 KB
target. -/
theorem parse_file_size_truncates_holds :
    ratTrunc (19/10 : ℚ) = 1 ∧ ((1:ℤ) : ℚ) ≤ 19/10
    ∧ parse_file_size (some "1.9") = ParseResult.value 1 := by
  have hq : pyFloat "1.9" = some (PyFloatVal.finite (19/10)) := by
    rw [pyFloat, show pyFloatRepr "1.9" = some (FloatRepr.finite false 1 9 1 false 0) from by decide]
    simp only [Option.map_some', floatVal]
    norm_num
  have h := parse_file_size_truncates "1.9" (19/10) hq (by norm_num)
  rw [show ⌊(19/10 : ℚ)⌋ = 1 from by norm_num] at h
  rw [if_pos (by norm_num)] at h
  exact h

-- ## Theorems: padding content (C6)

/-- Claim C6: add_padding_content returns its input unchanged for targets of
at most 50000 bytes, and otherwise appends exactly three filler blocks,
leaving the original blocks in place as the unchanged prefix. -/
theorem add_padding_spec (content : List Block) (target_bytes : ℕ) :
    (target_bytes ≤ 50000 → add_padding_content content target_bytes = content)
    ∧ (50000 < target_bytes →
        add_padding_content content target_bytes
          = content ++ List.replicate 3 (Block.para padding_text "Invisible")
        ∧ (add_padding_content content target_bytes).take content.length = content
        ∧ (add_padding_content content target_bytes).length = content.length + 3) := by
  constructor
  · intro h
    rw [add_padding_content, if_pos h]
  · intro h
    rw [add_padding_content, if_neg (by omega)]
    refine ⟨rfl, ?_, by simp⟩
    exact List.take_left _ _

/-- Witness for C6 at a one-block content and the targets 1024 and 61440. -/
theorem add_padding_spec_holds :
    (add_padding_content [Block.para "Name" "FormLabel"] 1024 = [Block.para "Name" "FormLabel"])
    ∧ add_padding_content [Block.para "Name" "FormLabel"] 61440
        = [Block.para "Name" "FormLabel"] ++ List.replicate 3 (Block.para padding_text "Invisible") :=
  ⟨(add_padding_spec _ 1024).1 (by norm_num),
   ((add_padding_spec _ 61440).2 (by norm_num)).1⟩

-- ## Theorems: per-row failure isolation (C5)

/-- In the per-row loop, the artifact of every succeeding row is produced,
regardless of what any other row does. -/
theorem processRows_mem {Row Err Path : Type} (gen : ℕ → Row → Except Err Path)
    (l : List (ℕ × Row)) (i : ℕ) (r : Row) (p : Path)
    (hmem : (i, r) ∈ l) (hok : gen i r = Except.ok p) : p ∈ processRows gen l := by
  induction l with
  | nil => cases hmem
  | cons hd tl ih =>
    obtain ⟨j, s⟩ := hd
    rw [processRows]
    rcases List.mem_cons.mp hmem with heq | htl
    · injection heq with h1 h2
      subst h1; subst h2
      rw [hok]
      exact List.mem_cons_self _ _
    · cases hgen : gen j s
      · exact ih htl
      · exact List.mem_cons_of_mem _ (ih htl)

/-- Claim C5: an exception in one row never aborts the batch.  Whatever the
generator does on other rows (including raising), every row on which it
succeeds contributes its artifact to the output of the loop. -/
theorem row_failure_isolated {Row Err Path : Type} (gen : ℕ → Row → Except Err Path)
    (rows : List Row) (i : ℕ) (r : Row) (p : Path)
    (hrow : rows[i]? = some r) (hok : gen i r = Except.ok p) :
    p ∈ generate_all_pdfs gen rows := by
  apply processRows_mem gen _ i r p _ hok
  exact List.mem_enum_iff_getElem?.mpr hrow

/-- Witness for C5: five rows with an injected failure at index 2; the row at
index 3 still yields its artifact (and the loop output is 10, 11, 13, 14). -/
theorem row_failure_isolated_holds :
    (13 : ℕ) ∈ generate_all_pdfs
      (fun i r => if i = 2 then Except.error () else Except.ok r)
      [(10 : ℕ), 11, 12, 13, 14] :=
  row_failure_isolated _ _ 3 13 13 rfl rfl

-- ## invariant lemmas

theorem mem_pyBasename {c : Char} {l : List Char} (h : c ∈ pyBasename l) : c ∈ l ∧ c ≠ '/' := by
  rw [pyBasename] at h
  rw [List.mem_reverse] at h
  have h1 := List.mem_takeWhile_imp h
  have h2 : (l.reverse.takeWhile (fun c => c != '/')).Sublist l.reverse :=
    List.takeWhile_sublist _
  refine ⟨?_, by simpa using h1⟩
  exact List.mem_reverse.mp (h2.subset h)

theorem pyBasename_of_no_slash {l : List Char} (h : '/' ∉ l) : pyBasename l = l := by
  rw [pyBasename]
  rw [List.takeWhile_eq_self_iff.mpr]
  · exact List.reverse_reverse l
  · intro a ha
    rw [bne_iff_ne]
    intro h2
    exact h (h2 ▸ List.mem_reverse.mp ha)

theorem pyBasename_length_le (l : List Char) : (pyBasename l).length ≤ l.length := by
  rw [pyBasename, List.length_reverse]
  calc (l.reverse.takeWhile _).length ≤ l.reverse.length :=
        (List.takeWhile_sublist _).length_le
    _ = l.length := List.length_reverse l

theorem mem_replaceInvalid {c : Char} {l : List Char} (h : c ∈ replaceInvalid l) :
    keepChar c = true := by
  rw [replaceInvalid, List.mem_map] at h
  obtain ⟨a, _, rfl⟩ := h
  by_cases hk : keepChar a
  · rw [if_pos hk]; exact hk
  · rw [if_neg hk]; decide

theorem replaceInvalid_id {l : List Char} (h : ∀ c ∈ l, keepChar c = true) :
    replaceInvalid l = l := by
  induction l with
  | nil => rfl
  | cons a t ih =>
    rw [replaceInvalid, List.map_cons, if_pos (h a (List.mem_cons_self a t))]
    congr 1
    exact ih (fun c hc => h c (List.mem_cons_of_mem _ hc))

theorem replaceInvalid_length (l : List Char) : (replaceInvalid l).length = l.length :=
  List.length_map _ _

theorem mem_collapseRuns {c : Char} : ∀ {l : List Char}, c ∈ collapseRuns l →
    c = '_' ∨ (c ∈ l ∧ spaceOrUnderscore c = false) := by
  intro l
  induction l using collapseRuns.induct with
  | case1 => intro h; cases h
  | case2 d =>
    intro h
    rw [collapseRuns] at h
    rcases List.mem_singleton.mp h with rfl
    by_cases hd : spaceOrUnderscore d
    · left; rw [if_pos hd]
    · right
      rw [if_neg hd]
      exact ⟨List.mem_singleton.mpr rfl, by simpa using hd⟩
  | case3 a d rest hcond ih =>
    intro h
    rw [collapseRuns, if_pos hcond] at h
    rcases ih h with h1 | ⟨h2, h3⟩
    · exact Or.inl h1
    · exact Or.inr ⟨List.mem_cons_of_mem _ h2, h3⟩
  | case4 a d rest hcond ih =>
    intro h
    rw [collapseRuns, if_neg hcond] at h
    rcases List.mem_cons.mp h with rfl | htl
    · by_cases ha : spaceOrUnderscore a
      · left; rw [if_pos ha]
      · right
        rw [if_neg ha]
        exact ⟨List.mem_cons_self _ _, by simpa using ha⟩
    · rcases ih htl with h1 | ⟨h2, h3⟩
      · exact Or.inl h1
      · exact Or.inr ⟨List.mem_cons_of_mem _ h2, h3⟩

theorem collapseRuns_length_le : ∀ l : List Char, (collapseRuns l).length ≤ l.length := by
  intro l
  induction l using collapseRuns.induct with
  | case1 => simp [collapseRuns]
  | case2 d => simp [collapseRuns]
  | case3 a d rest hcond ih =>
    rw [collapseRuns, if_pos hcond]
    calc (collapseRuns (d :: rest)).length ≤ (d :: rest).length := ih
      _ ≤ (a :: d :: rest).length := by simp
  | case4 a d rest hcond ih =>
    rw [collapseRuns, if_neg hcond]
    simpa using ih

theorem collapseRuns_cons : ∀ (c : Char) (t : List Char), ∃ r : List Char,
    collapseRuns (c :: t) = (if spaceOrUnderscore c then '_' else c) :: r := by
  intro c t
  induction t generalizing c with
  | nil => exact ⟨[], rfl⟩
  | cons d rest ih =>
    by_cases hcond : spaceOrUnderscore c && spaceOrUnderscore d
    · obtain ⟨r, hr⟩ := ih d
      refine ⟨r, ?_⟩
      rw [collapseRuns, if_pos hcond, hr]
      have hc := (Bool.and_eq_true _ _).mp hcond
      rw [if_pos hc.1, if_pos hc.2]
    · exact ⟨collapseRuns (d :: rest), by rw [collapseRuns, if_neg hcond]⟩

theorem collapseRuns_chain : ∀ l : List Char, List.Chain' noRun (collapseRuns l) := by
  intro l
  induction l using collapseRuns.induct with
  | case1 => exact List.chain'_nil
  | case2 d => rw [collapseRuns]; exact List.chain'_singleton _
  | case3 a d rest hcond ih => rw [collapseRuns, if_pos hcond]; exact ih
  | case4 a d rest hcond ih =>
    rw [collapseRuns, if_neg hcond]
    obtain ⟨r, hr⟩ := collapseRuns_cons d rest
    rw [hr] at ih ⊢
    refine List.chain'_cons.mpr ⟨?_, ih⟩
    intro ⟨h1, h2⟩
    rw [Bool.and_eq_true] at hcond
    apply hcond
    constructor
    · by_cases ha : spaceOrUnderscore a
      · exact ha
      · rw [if_neg ha] at h1; exact absurd h1 ha
    · by_cases hd : spaceOrUnderscore d
      · exact hd
      · rw [if_neg hd] at h2; exact absurd h2 hd

theorem spaceOrUnderscore_ite_self {c : Char} (h : isSpacePy c = false) :
    (if spaceOrUnderscore c then '_' else c) = c := by
  by_cases hc : c = '_'
  · subst hc
    rw [if_pos (by decide)]
  · rw [if_neg ?_]
    rw [spaceOrUnderscore, h]
    simpa using hc

theorem collapseRuns_id : ∀ l : List Char, (∀ c ∈ l, isSpacePy c = false) →
    List.Chain' noRun l → collapseRuns l = l := by
  intro l
  induction l using collapseRuns.induct with
  | case1 => intro _ _; rfl
  | case2 d =>
    intro hns _
    rw [collapseRuns, spaceOrUnderscore_ite_self (hns d (List.mem_singleton.mpr rfl))]
  | case3 a d rest hcond ih =>
    intro hns hchain
    exfalso
    exact (List.chain'_cons.mp hchain).1 ((Bool.and_eq_true _ _).mp hcond)
  | case4 a d rest hcond ih =>
    intro hns hchain
    rw [collapseRuns, if_neg hcond]
    rw [spaceOrUnderscore_ite_self (hns a (List.mem_cons_self _ _))]
    congr 1
    exact ih (fun c hc => hns c (List.mem_cons_of_mem _ hc)) (List.chain'_cons.mp hchain).2

theorem pyStripBy_within (p : Char → Bool) (l : List Char) : pyStripBy p l <:+: l := by
  rw [pyStripBy]
  have h1 : List.dropWhile p l <:+ l := List.dropWhile_suffix p
  have h2 : ((List.dropWhile p l).reverse.dropWhile p).reverse <+: List.dropWhile p l := by
    conv_rhs => rw [← List.reverse_reverse (List.dropWhile p l)]
    rw [List.reverse_prefix]
    exact List.dropWhile_suffix p
  exact ((h2.isInfix).trans (h1.isInfix))

theorem pyStripBy_sublist (p : Char → Bool) (l : List Char) : (pyStripBy p l).Sublist l :=
  (pyStripBy_within p l).sublist

theorem dropWhile_head_false {p : Char → Bool} : ∀ {l c t}, List.dropWhile p l = c :: t →
    p c = false := by
  intro l
  induction l with
  | nil => intro c t h; cases h
  | cons a as ih =>
    intro c t h
    rw [List.dropWhile_cons] at h
    by_cases ha : p a
    · rw [if_pos ha] at h
      exact ih h
    · rw [if_neg ha] at h
      cases h
      simpa using ha

theorem pyStripBy_getLast {p : Char → Bool} {l : List Char} {c : Char}
    (h : (pyStripBy p l).getLast? = some c) : p c = false := by
  rw [pyStripBy, List.getLast?_reverse] at h
  obtain ⟨t, ht⟩ : ∃ t, List.dropWhile p (List.dropWhile p l).reverse = c :: t := by
    cases hd : List.dropWhile p (List.dropWhile p l).reverse with
    | nil => rw [hd] at h; cases h
    | cons x xs =>
      rw [hd] at h
      cases h
      exact ⟨xs, rfl⟩
  exact dropWhile_head_false ht

theorem pyStripBy_head {p : Char → Bool} {l : List Char} {c : Char}
    (h : (pyStripBy p l).head? = some c) : p c = false := by
  have hpre : pyStripBy p l <+: List.dropWhile p l := by
    rw [pyStripBy]
    conv_rhs => rw [← List.reverse_reverse (List.dropWhile p l)]
    rw [List.reverse_prefix]
    exact List.dropWhile_suffix p
  obtain ⟨r, hr⟩ := hpre
  cases hs : pyStripBy p l with
  | nil => rw [hs] at h; cases h
  | cons x xs =>
    rw [hs] at h
    cases h
    rw [hs] at hr
    apply @dropWhile_head_false p l c (xs ++ r)
    rw [← hr]
    rfl

theorem dropWhile_id_of_head {p : Char → Bool} {l : List Char}
    (h : ∀ c, l.head? = some c → p c = false) : List.dropWhile p l = l := by
  cases l with
  | nil => rfl
  | cons a t =>
    rw [List.dropWhile_cons, if_neg]
    rw [h a rfl]
    simp

theorem pyStripBy_id {p : Char → Bool} {l : List Char}
    (hh : ∀ c, l.head? = some c → p c = false)
    (hl : ∀ c, l.getLast? = some c → p c = false) : pyStripBy p l = l := by
  rw [pyStripBy, dropWhile_id_of_head hh, dropWhile_id_of_head ?_, List.reverse_reverse]
  intro c hc
  rw [List.head?_reverse] at hc
  exact hl c hc

-- ## sanitizeCore invariants

theorem sanitizeCore_cases (l : List Char) :
    sanitizeCore l = "document".toList
    ∨ (sanitizeCore l = pyStripBy stripSet (collapseRuns (replaceInvalid (pyBasename l)))
        ∧ sanitizeCore l ≠ []) := by
  rw [sanitizeCore]
  by_cases h : (pyStripBy stripSet (collapseRuns (replaceInvalid (pyBasename l)))).isEmpty
  · rw [if_pos h]
    exact Or.inl rfl
  · rw [if_neg h]
    refine Or.inr ⟨rfl, ?_⟩
    intro heq
    rw [heq] at h
    exact h rfl

theorem sanitizeCore_all_keep {l : List Char} {c : Char} (h : c ∈ sanitizeCore l) :
    keepChar c = true := by
  rcases sanitizeCore_cases l with hc | ⟨hc, _⟩
  · rw [hc] at h
    revert c
    decide
  · rw [hc] at h
    have h3 := (pyStripBy_sublist _ _).subset h
    rcases mem_collapseRuns h3 with rfl | ⟨h4, _⟩
    · decide
    · exact mem_replaceInvalid h4

theorem sanitizeCore_no_ws {l : List Char} {c : Char} (h : c ∈ sanitizeCore l) :
    isSpacePy c = false := by
  rcases sanitizeCore_cases l with hc | ⟨hc, _⟩
  · rw [hc] at h
    revert c
    decide
  · rw [hc] at h
    have h3 := (pyStripBy_sublist _ _).subset h
    rcases mem_collapseRuns h3 with rfl | ⟨_, h5⟩
    · decide
    · rw [spaceOrUnderscore] at h5
      exact (Bool.or_eq_false_iff.mp h5).1

theorem chain_noRun_document : List.Chain' noRun "document".toList := by
  rw [show ("document".toList : List Char) = ['d', 'o', 'c', 'u', 'm', 'e', 'n', 't'] from rfl]
  simp only [List.chain'_cons, List.chain'_singleton]
  decide

theorem sanitizeCore_chain (l : List Char) : List.Chain' noRun (sanitizeCore l) := by
  rcases sanitizeCore_cases l with hc | ⟨hc, _⟩
  · rw [hc]
    exact chain_noRun_document
  · rw [hc]
    exact List.Chain'.infix (collapseRuns_chain _) (pyStripBy_within _ _)

theorem sanitizeCore_head {l : List Char} {c : Char}
    (h : (sanitizeCore l).head? = some c) : stripSet c = false := by
  rcases sanitizeCore_cases l with hc | ⟨hc, _⟩
  · rw [hc] at h
    cases h
    decide
  · rw [hc] at h
    exact pyStripBy_head h

theorem sanitizeCore_getLast {l : List Char} {c : Char}
    (h : (sanitizeCore l).getLast? = some c) : stripSet c = false := by
  rcases sanitizeCore_cases l with hc | ⟨hc, _⟩
  · rw [hc] at h
    rw [show ("document".toList : List Char).getLast? = some 't' from by decide] at h
    cases h
    decide
  · rw [hc] at h
    exact pyStripBy_getLast h

theorem sanitizeCore_ne_nil (l : List Char) : sanitizeCore l ≠ [] := by
  rcases sanitizeCore_cases l with hc | ⟨_, hne⟩
  · rw [hc]
    decide
  · exact hne

theorem sanitizeCore_length (l : List Char) :
    (sanitizeCore l).length ≤ max l.length 8 := by
  rcases sanitizeCore_cases l with hc | ⟨hc, _⟩
  · rw [hc]
    simp
  · rw [hc]
    refine le_max_of_le_left ?_
    calc (pyStripBy stripSet (collapseRuns (replaceInvalid (pyBasename l)))).length
        ≤ (collapseRuns (replaceInvalid (pyBasename l))).length :=
          (pyStripBy_sublist _ _).length_le
      _ ≤ (replaceInvalid (pyBasename l)).length := collapseRuns_length_le _
      _ = (pyBasename l).length := replaceInvalid_length _
      _ ≤ l.length := pyBasename_length_le l

theorem sanitizeCore_no_slash (l : List Char) : '/' ∉ sanitizeCore l := by
  intro h
  have := sanitizeCore_all_keep h
  simp [keepChar, isWordChar, isSpacePy, Char.isAlphanum, Char.isAlpha, Char.isDigit,
    Char.isUpper, Char.isLower] at this

-- ## idempotence

theorem sanitizeCore_fixed {f : List Char}
    (hkeep : ∀ c ∈ f, keepChar c = true)
    (hnws : ∀ c ∈ f, isSpacePy c = false)
    (hchain : List.Chain' noRun f)
    (hhead : ∀ c, f.head? = some c → stripSet c = false)
    (hlast : ∀ c, f.getLast? = some c → stripSet c = false)
    (hne : f ≠ []) :
    sanitizeCore f = f := by
  have hslash : '/' ∉ f := fun h => absurd (hkeep '/' h) (by decide)
  rw [sanitizeCore]
  rw [pyBasename_of_no_slash hslash, replaceInvalid_id hkeep,
    collapseRuns_id f hnws hchain, pyStripBy_id hhead hlast, if_neg]
  simp [hne]

theorem sanitize_filename_eq_core_of_le {s : List Char} (hs : s.length ≤ 200) :
    sanitize_filename s = sanitizeCore s := by
  have hlen : (sanitizeCore s).length ≤ 200 := by
    have := sanitizeCore_length s
    omega
  rw [sanitize_filename, if_neg (by omega)]

/-- Claim C3, amended: filename sanitization is idempotent on every input of
at most 200 characters, that is on every input whose first pass is not
altered by the 200-character truncation.  The truncation can expose a
trailing underscore or dot that a second pass would strip, so idempotence
fails in general (see the counterexample). -/
theorem sanitize_filename_idempotent_le200 (s : List Char) (hs : s.length ≤ 200) :
    sanitize_filename (sanitize_filename s) = sanitize_filename s := by
  rw [sanitize_filename_eq_core_of_le hs]
  have hcore : sanitizeCore (sanitizeCore s) = sanitizeCore s :=
    sanitizeCore_fixed (fun c h => sanitizeCore_all_keep h)
      (fun c h => sanitizeCore_no_ws h) (sanitizeCore_chain s)
      (fun c h => sanitizeCore_head h) (fun c h => sanitizeCore_getLast h)
      (sanitizeCore_ne_nil s)
  have hlen : (sanitizeCore s).length ≤ 200 := by
    have := sanitizeCore_length s
    omega
  rw [sanitize_filename_eq_core_of_le hlen, hcore]

/-- Witness for the amended C3 statement at the path-traversal input. -/
theorem sanitize_filename_idempotent_le200_holds :
    sanitize_filename (sanitize_filename "../evil".toList) = sanitize_filename "../evil".toList :=
  sanitize_filename_idempotent_le200 _ (by decide)

-- ## sanitize_filename invariants through truncation

theorem sanitize_filename_all_keep {l : List Char} {c : Char}
    (h : c ∈ sanitize_filename l) : keepChar c = true := by
  rw [sanitize_filename] at h
  by_cases hl : 200 < (sanitizeCore l).length
  · rw [if_pos hl] at h
    exact sanitizeCore_all_keep ((List.take_sublist _ _).subset h)
  · rw [if_neg hl] at h
    exact sanitizeCore_all_keep h

theorem sanitize_filename_ne_nil (l : List Char) : sanitize_filename l ≠ [] := by
  rw [sanitize_filename]
  by_cases hl : 200 < (sanitizeCore l).length
  · rw [if_pos hl]
    intro h
    rcases List.take_eq_nil_iff.mp h with h2 | h2
    · exact absurd h2 (by norm_num)
    · exact sanitizeCore_ne_nil l h2
  · rw [if_neg hl]
    exact sanitizeCore_ne_nil l

-- ## filename resolution (C8, C9)

theorem pyEndsWith_iff {s t : List Char} : pyEndsWith s t = true ↔ t <:+ s := by
  rw [pyEndsWith, List.isPrefixOf_iff_prefix, List.reverse_prefix]

/-- Claim C8: for every non-empty custom filename directive the resolved name
is non-empty, contains no path separator (neither slash nor backslash), is
not the dot-dot component, and ends with the pdf extension up to case (the
extension is appended exactly when the lowercased sanitized name lacks
it). -/
theorem custom_filename_safe (s : List Char) (hne : s ≠ []) :
    resolve_custom_filename s ≠ []
    ∧ '/' ∉ resolve_custom_filename s
    ∧ '\\' ∉ resolve_custom_filename s
    ∧ resolve_custom_filename s ≠ ['.', '.']
    ∧ pdfExt <:+ pyLower (resolve_custom_filename s) := by
  rw [resolve_custom_filename, withPdfExtension]
  set f := sanitize_filename (pyStripBy isSpacePy s) with hf
  have hfkeep : ∀ c ∈ f, keepChar c = true := fun c h => sanitize_filename_all_keep h
  have hfne : f ≠ [] := sanitize_filename_ne_nil _
  by_cases hend : pyEndsWith (pyLower f) pdfExt
  · rw [if_pos hend]
    have hsuf : pdfExt <:+ pyLower f := pyEndsWith_iff.mp hend
    refine ⟨hfne, ?_, ?_, ?_, hsuf⟩
    · intro h
      exact absurd (hfkeep _ h) (by decide)
    · intro h
      exact absurd (hfkeep _ h) (by decide)
    · intro h
      have : (4 : ℕ) ≤ 2 := by
        have h1 := hsuf.length_le
        rw [h, pyLower] at h1
        simpa [pdfExt] using h1
      omega
  · rw [if_neg hend]
    refine ⟨?_, ?_, ?_, ?_, ?_⟩
    · intro h
      exact absurd (List.append_eq_nil.mp h).2 (by decide)
    · intro h
      rcases List.mem_append.mp h with h | h
      · exact absurd (hfkeep _ h) (by decide)
      · exact absurd h (by decide)
    · intro h
      rcases List.mem_append.mp h with h | h
      · exact absurd (hfkeep _ h) (by decide)
      · exact absurd h (by decide)
    · intro h
      have h2 : 1 ≤ f.length := List.length_pos.mpr hfne
      have h1 : f.length + 4 = 2 := by
        have h3 := congrArg List.length h
        simpa [pdfExt] using h3
      omega
    · rw [pyLower, List.map_append]
      rw [show List.map Char.toLower pdfExt = pdfExt from by decide]
      exact List.suffix_append _ _

/-- Witness for C8 at the directive ../evil (which resolves to evil.pdf). -/
theorem custom_filename_safe_holds :
    resolve_custom_filename "../evil".toList ≠ []
    ∧ '/' ∉ resolve_custom_filename "../evil".toList
    ∧ '\\' ∉ resolve_custom_filename "../evil".toList
    ∧ resolve_custom_filename "../evil".toList ≠ ['.', '.']
    ∧ pdfExt <:+ pyLower (resolve_custom_filename "../evil".toList) :=
  custom_filename_safe _ (by decide)

/-- Claim C9, counterexample: a whitespace-only directive is truthy before
stripping, so the row is not given the default index name; it resolves to
document.pdf instead of 0.pdf. -/
theorem whitespace_directive_not_default :
    resolve_filename (some [' ']) 0 = "document.pdf".toList
    ∧ resolve_filename (some [' ']) 0 ≠ default_row_filename 0 := by decide

/-- Claim C9, amended: a missing directive or the exactly-empty string gets
the default index-based name; a non-empty directive consisting only of
whitespace is treated as present, and after stripping and sanitization it
resolves to document.pdf rather than the default scheme. -/
theorem resolve_filename_default (c : Option (List Char)) (i : ℕ) :
    (c = none ∨ c = some [] → resolve_filename c i = default_row_filename i)
    ∧ (∀ l, c = some l → l ≠ [] → (∀ ch ∈ l, isSpacePy ch = true) →
        resolve_filename c i = "document.pdf".toList) := by
  constructor
  · rintro (rfl | rfl)
    · rfl
    · rfl
  · rintro l rfl hne hws
    rw [resolve_filename]
    rw [if_neg (by simp [List.isEmpty_iff, hne])]
    rw [resolve_custom_filename]
    have hstrip : pyStripBy isSpacePy l = [] := by
      rw [pyStripBy, List.dropWhile_eq_nil_iff.mpr (fun x hx => hws x hx)]
      rfl
    rw [hstrip]
    decide

/-- Witness for the amended C9 statement. -/
theorem resolve_filename_default_holds :
    resolve_filename none 5 = default_row_filename 5
    ∧ resolve_filename (some [' ', '\t']) 3 = "document.pdf".toList :=
  ⟨(resolve_filename_default none 5).1 (Or.inl rfl),
   (resolve_filename_default _ 3).2 [' ', '\t'] rfl (by decide) (by decide)⟩

-- ## Theorems: sanitization counterexample (C3)

/-- Claim C3, counterexample: sanitization is not idempotent.  On 199 letters
followed by a dot and one more letter (201 characters), the first pass
truncates to 200 characters ending in a dot, and a second pass strips that
dot, giving a different, 199-character name. -/
theorem sanitize_not_idempotent :
    sanitize_filename (sanitize_filename (List.replicate 199 'a' ++ ['.', 'b']))
      ≠ sanitize_filename (List.replicate 199 'a' ++ ['.', 'b']) := by decide

-- ## Theorems: raster repetition (C7)

-- concrete parameter computations
theorem scale_600 : calculate_scale_factor 600 = 12/5 := by
  rw [calculate_scale_factor, if_pos (by norm_num)]
  rw [min_eq_right (by norm_num)]
  norm_num

theorem pyInt_nonneg_eq_floor {q : ℚ} (h : 0 ≤ q) : pyInt q = ⌊q⌋ := if_pos h

theorem pyInt_100 : pyInt (100 * (12/5 : ℚ)) = 240 := by
  rw [pyInt, if_pos (by norm_num), show (100 * (12/5 : ℚ)) = 240 from by norm_num]
  norm_num

theorem pyInt_25 : pyInt (25 * (12/5 : ℚ)) = 60 := by
  rw [pyInt, if_pos (by norm_num), show (25 * (12/5 : ℚ)) = 60 from by norm_num]
  norm_num

theorem pyInt_40 : pyInt (40 * (12/5 : ℚ)) = 96 := by
  rw [pyInt, if_pos (by norm_num), show (40 * (12/5 : ℚ)) = 96 from by norm_num]
  norm_num

theorem pyInt_30 : pyInt (30 * (12/5 : ℚ)) = 72 := by
  rw [pyInt, if_pos (by norm_num), show (30 * (12/5 : ℚ)) = 72 from by norm_num]
  norm_num

theorem pyInt_792 : pyInt (792 * (12/5 : ℚ)) = 1900 := by
  rw [pyInt, if_pos (by norm_num), show (792 * (12/5 : ℚ)) = 9504/5 from by norm_num]
  norm_num

/-- Claim C7, counterexample: the renderer does not repeat the full field
list exactly max(1, min(5, target_kb // 200)) times.  With five fields and a
600 KB target the formula gives 3 repetitions, but the vertical truncation
check aborts the draw inside the second repetition: only one Section marker
is drawn and only 9 of the 15 expected labels. -/
theorem raster_repetition_truncated :
    countSections (generate_large_image_ops demoData 600) = 1
    ∧ countLabels (generate_large_image_ops demoData 600) = 9
    ∧ repetitionsOf (some 600) = 3
    ∧ demoData.length = 5 := by
  have h : generate_large_image_ops demoData 600
      = (drawReps demoData 1660 60 96 72 3 0 110).1 := by
    rw [generate_large_image_ops, draw_form_fields, scale_600, pyInt_100, pyInt_25,
      pyInt_40, pyInt_30, pyInt_792]
    norm_num
    rfl
  rw [h]
  refine ⟨by decide, by decide, by decide, by decide⟩

theorem drawFields_complete {thresh labelStep lineSpacing : ℤ}
    (hlab : 0 ≤ labelStep) (hline : 0 ≤ lineSpacing) :
    ∀ (data : List (String × Option String)) (y : ℤ),
      y + data.length * (labelStep + lineSpacing) ≤ thresh →
      drawFields thresh labelStep lineSpacing data y
        = (fieldOps data, y + data.length * (labelStep + lineSpacing), false) := by
  intro data
  induction data with
  | nil =>
    intro y _
    rw [drawFields, fieldOps]
    norm_num
  | cons kv rest ih =>
    intro y hroom
    obtain ⟨k, v⟩ := kv
    have hlen : ((k, v) :: rest).length = rest.length + 1 := List.length_cons _ _
    have hd : (0:ℤ) ≤ labelStep + lineSpacing := by omega
    have hcast : (((k, v) :: rest).length : ℤ) = (rest.length : ℤ) + 1 := by
      rw [hlen]; push_cast; ring
    rw [hcast] at hroom
    have hnn : (0:ℤ) ≤ (rest.length : ℤ) * (labelStep + lineSpacing) :=
      mul_nonneg (by positivity) hd
    rw [drawFields, if_neg (by nlinarith)]
    rw [ih (y + labelStep + lineSpacing) (by nlinarith)]
    simp only [fieldOps, List.foldr_cons, Prod.mk.injEq, true_and, and_true]
    rw [hcast]
    ring

theorem drawReps_complete {data : List (String × Option String)}
    {thresh labelStep lineSpacing sectionSpacing : ℤ}
    (hlab : 0 ≤ labelStep) (hline : 0 ≤ lineSpacing) (hsect : 0 ≤ sectionSpacing) :
    ∀ (r rep : ℕ) (y : ℤ),
      y + r * (lineSpacing + data.length * (labelStep + lineSpacing) + sectionSpacing) ≤ thresh →
      (drawReps data thresh labelStep lineSpacing sectionSpacing r rep y).1
          = fullRepsOps data r rep
        ∧ (drawReps data thresh labelStep lineSpacing sectionSpacing r rep y).2
          ≤ y + r * (lineSpacing + data.length * (labelStep + lineSpacing) + sectionSpacing) := by
  intro r
  induction r with
  | zero =>
    intro rep y _
    rw [drawReps, fullRepsOps]
    norm_num
  | succ r ih =>
    intro rep y hroom
    have hDnn : (0:ℤ) ≤ (data.length : ℤ) * (labelStep + lineSpacing) :=
      mul_nonneg (by positivity) (by omega)
    have hXnn : (0:ℤ) ≤ lineSpacing + ↑data.length * (labelStep + lineSpacing)
        + sectionSpacing := by omega
    have hrXnn : (0:ℤ) ≤ (r:ℤ) * (lineSpacing + ↑data.length * (labelStep + lineSpacing)
        + sectionSpacing) := mul_nonneg (by positivity) hXnn
    have heq : ((r:ℕ) + 1 : ℤ) * (lineSpacing + ↑data.length * (labelStep + lineSpacing)
          + sectionSpacing)
        = (lineSpacing + ↑data.length * (labelStep + lineSpacing) + sectionSpacing)
          + (r:ℤ) * (lineSpacing + ↑data.length * (labelStep + lineSpacing)
            + sectionSpacing) := by
      ring
    push_cast at hroom
    rw [show ((r:ℤ) + 1) * (lineSpacing + ↑data.length * (labelStep + lineSpacing)
        + sectionSpacing) = (lineSpacing + ↑data.length * (labelStep + lineSpacing)
        + sectionSpacing) + (r:ℤ) * (lineSpacing + ↑data.length * (labelStep + lineSpacing)
        + sectionSpacing) from by ring] at hroom
    rw [drawReps, fullRepsOps]
    by_cases hrep : 0 < rep
    · rw [if_pos hrep, if_pos hrep]
      have hfr : y + lineSpacing + ↑data.length * (labelStep + lineSpacing) ≤ thresh := by
        omega
      rw [drawFields_complete hlab hline data (y + lineSpacing) hfr]
      rw [if_neg (by simp)]
      obtain ⟨ihops, ihy⟩ := ih (rep + 1)
        (y + lineSpacing + ↑data.length * (labelStep + lineSpacing) + sectionSpacing)
        (by omega)
      constructor
      · show DrawOp.sectionMarker (rep + 1) :: fieldOps data
            ++ (drawReps data thresh labelStep lineSpacing sectionSpacing r (rep + 1)
              (y + lineSpacing + ↑data.length * (labelStep + lineSpacing)
                + sectionSpacing)).1
          = DrawOp.sectionMarker (rep + 1) :: fieldOps data ++ fullRepsOps data r (rep + 1)
        rw [ihops]
      · show (drawReps data thresh labelStep lineSpacing sectionSpacing r (rep + 1)
            (y + lineSpacing + ↑data.length * (labelStep + lineSpacing)
              + sectionSpacing)).2 ≤ _
        push_cast
        omega
    · rw [if_neg hrep, if_neg hrep]
      have hfr : y + ↑data.length * (labelStep + lineSpacing) ≤ thresh := by
        omega
      rw [drawFields_complete hlab hline data y hfr]
      rw [if_neg (by simp)]
      obtain ⟨ihops, ihy⟩ := ih (rep + 1)
        (y + ↑data.length * (labelStep + lineSpacing) + sectionSpacing)
        (by omega)
      constructor
      · show fieldOps data
            ++ (drawReps data thresh labelStep lineSpacing sectionSpacing r (rep + 1)
              (y + ↑data.length * (labelStep + lineSpacing) + sectionSpacing)).1
          = fieldOps data ++ fullRepsOps data r (rep + 1)
        rw [ihops]
      · show (drawReps data thresh labelStep lineSpacing sectionSpacing r (rep + 1)
            (y + ↑data.length * (labelStep + lineSpacing) + sectionSpacing)).2 ≤ _
        push_cast
        omega

theorem countLabels_fieldOps (data : List (String × Option String)) :
    countLabels (fieldOps data) = data.length := by
  induction data with
  | nil => rfl
  | cons kv rest ih =>
    rw [fieldOps, List.foldr_cons]
    show countLabels (DrawOp.fieldLabel kv.1 :: DrawOp.fieldValue (kv.2.getD "N/A")
      :: fieldOps rest) = _
    rw [countLabels] at ih ⊢
    rw [List.countP_cons, List.countP_cons, ih]
    simp [labelFlag]

theorem countSections_fieldOps (data : List (String × Option String)) :
    countSections (fieldOps data) = 0 := by
  induction data with
  | nil => rfl
  | cons kv rest ih =>
    rw [fieldOps, List.foldr_cons]
    show countSections (DrawOp.fieldLabel kv.1 :: DrawOp.fieldValue (kv.2.getD "N/A")
      :: fieldOps rest) = _
    rw [countSections] at ih ⊢
    rw [List.countP_cons, List.countP_cons, ih]
    simp [sectionFlag]

theorem countLabels_fullRepsOps (data : List (String × Option String)) :
    ∀ r rep, countLabels (fullRepsOps data r rep) = r * data.length := by
  intro r
  induction r with
  | zero =>
    intro rep
    rw [fullRepsOps]
    show countLabels [] = 0 * data.length
    rw [countLabels, List.countP_nil]
    omega
  | succ r ih =>
    intro rep
    rw [fullRepsOps]
    have hf := countLabels_fieldOps data
    have hih := ih (rep + 1)
    rw [countLabels] at hf hih ⊢
    by_cases hrep : 0 < rep
    · rw [if_pos hrep]
      rw [List.countP_append, List.countP_cons, hf, hih]
      simp [labelFlag]
      ring
    · rw [if_neg hrep]
      rw [List.countP_append, hf, hih]
      ring

theorem countSections_fullRepsOps (data : List (String × Option String)) :
    ∀ r rep, countSections (fullRepsOps data r rep)
      = (if 0 < rep then r else r - 1) := by
  intro r
  induction r with
  | zero =>
    intro rep
    rw [fullRepsOps]
    show countSections [] = _
    rw [countSections, List.countP_nil]
    split <;> rfl
  | succ r ih =>
    intro rep
    rw [fullRepsOps]
    have hf := countSections_fieldOps data
    have hih := ih (rep + 1)
    rw [if_pos (by omega : 0 < rep + 1)] at hih
    rw [countSections] at hf hih ⊢
    by_cases hrep : 0 < rep
    · rw [if_pos hrep, if_pos hrep]
      rw [List.countP_append, List.countP_cons, hf, hih]
      simp [sectionFlag]
      omega
    · rw [if_neg hrep, if_neg hrep]
      rw [List.countP_append, hf, hih]
      omega

theorem pyInt_scale_nonneg {c : ℚ} {scale : ℚ} (hc : 0 ≤ c) (hs : 0 ≤ scale) :
    0 ≤ pyInt (c * scale) := by
  rw [pyInt, if_pos (mul_nonneg hc hs)]
  exact Int.floor_nonneg.mpr (mul_nonneg hc hs)

/-- Claim C7, amended: the repetition count is computed as
max(1, min(5, (target_kb or 0) // 200)), and when the repeated content fits
above the bottom margin (no truncation), the draw emits the full field list
exactly that many times, each repetition after the first prefixed with its
Section marker; truncation can abort the draw mid-repetition, so the exact
count is only guaranteed under the room hypothesis.  The stated room bound
adds up the per-repetition vertical budget. -/
theorem draw_form_fields_amended (data : List (String × Option String)) (scale : ℚ)
    (start_y height : ℤ) (target_kb : Option ℕ) (hs : 0 ≤ scale)
    (hroom : start_y + (repetitionsOf target_kb : ℤ)
        * (pyInt (40 * scale) + data.length * (pyInt (25 * scale) + pyInt (40 * scale))
          + pyInt (30 * scale))
      ≤ height - pyInt (100 * scale)) :
    repetitionsOf target_kb = max 1 (min 5 (target_kb.getD 0 / 200))
    ∧ (draw_form_fields data scale start_y height target_kb).1
        = fullRepsOps data (repetitionsOf target_kb) 0
    ∧ countLabels (draw_form_fields data scale start_y height target_kb).1
        = repetitionsOf target_kb * data.length
    ∧ countSections (draw_form_fields data scale start_y height target_kb).1
        = repetitionsOf target_kb - 1 := by
  have hlab : (0:ℤ) ≤ pyInt (25 * scale) := pyInt_scale_nonneg (by norm_num) hs
  have hline : (0:ℤ) ≤ pyInt (40 * scale) := pyInt_scale_nonneg (by norm_num) hs
  have hsect : (0:ℤ) ≤ pyInt (30 * scale) := pyInt_scale_nonneg (by norm_num) hs
  have hmain := @drawReps_complete data (height - pyInt (100 * scale)) (pyInt (25 * scale))
    (pyInt (40 * scale)) (pyInt (30 * scale)) hlab hline hsect
    (repetitionsOf target_kb) 0 start_y hroom
  rw [draw_form_fields]
  exact ⟨rfl, hmain.1, by rw [hmain.1, countLabels_fullRepsOps],
    by rw [hmain.1, countSections_fullRepsOps, if_neg (by omega)]⟩

/-- Witness for the amended C7 statement: one field at target 600 on the
canvas produced by generate_large_image fits without truncation. -/
theorem draw_form_fields_amended_holds :
    repetitionsOf (some 600) = max 1 (min 5 ((some 600 : Option ℕ).getD 0 / 200))
    ∧ (draw_form_fields [("name", some "Alice")] (12/5) 110 1900 (some 600)).1
        = fullRepsOps [("name", some "Alice")] (repetitionsOf (some 600)) 0
    ∧ countLabels (draw_form_fields [("name", some "Alice")] (12/5) 110 1900 (some 600)).1
        = repetitionsOf (some 600) * ([("name", some "Alice")] : List (String × Option String)).length
    ∧ countSections (draw_form_fields [("name", some "Alice")] (12/5) 110 1900 (some 600)).1
        = repetitionsOf (some 600) - 1 := by
  apply draw_form_fields_amended [("name", some "Alice")] (12/5) 110 1900 (some 600)
    (by norm_num)
  rw [pyInt_100, pyInt_25, pyInt_40, pyInt_30]
  decide

end PdfGen
